import Mathlib

/-!
Verification of the vortex-proxy core against its specification.

The Rust source is shallowly embedded: `f64` values are modelled by the
inductive type `F` (a rational value or NaN; IEEE rounding, infinities and
signed zero are abstracted away, which matches the specification speaking of
real numbers "within floating-point tolerance"), atomic cells become plain
fields updated by pure state-passing functions (the CAS retry loops in the
source guarantee exactly this sequential read-modify-write semantics per
committed update), and the lock-free containers (ArcSwap, DashMap, SegQueue)
become immutable lists and association lists.
-/

/-- Model of an `f64` as used by the tracker: either NaN or an exact rational.
Rust comparison semantics are preserved: any comparison involving NaN is
false, `partial_cmp` with NaN is `None`, and arithmetic propagates NaN. -/
inductive F where
  | nan : F
  | val : ℚ → F
deriving DecidableEq, Repr

/-- Rust `a + b` on `f64`, NaN-propagating. -/
def F.add : F → F → F
  | .val x, .val y => .val (x + y)
  | _, _ => .nan

/-- Rust `a - b` on `f64`, NaN-propagating. -/
def F.sub : F → F → F
  | .val x, .val y => .val (x - y)
  | _, _ => .nan

/-- Rust `a * b` on `f64`, NaN-propagating. -/
def F.mul : F → F → F
  | .val x, .val y => .val (x * y)
  | _, _ => .nan

/-- Rust `a > b` on `f64`: false whenever either operand is NaN. -/
def F.gt : F → F → Bool
  | .val x, .val y => decide (y < x)
  | _, _ => false

/-- Rust `f64::partial_cmp`: `None` whenever either operand is NaN. -/
def F.partialCmp : F → F → Option Ordering
  | .val x, .val y =>
      some (if x < y then Ordering.lt else if x = y then Ordering.eq else Ordering.gt)
  | _, _ => none

/-- Rational carried by an `F`, defaulting to 0 on NaN (used only to state
properties of values already known to be non-NaN). -/
def F.toQ : F → ℚ
  | .nan => 0
  | .val q => q

/-- `src/vortex-core/src/load_balancer/ewma.rs`: struct `PeakEwma`.
The `AtomicU64` bit-pattern cell holding the f64 average becomes an `F`
field; the active-request counter becomes a natural number. -/
structure PeakEwma where
  ewma : F
  decay_alpha : F
  active_requests : ℕ
deriving DecidableEq, Repr

/-- `PeakEwma::new(initial_latency_ms, decay_alpha)`. -/
def PeakEwma.new (initial_latency_ms : F) (decay_alpha : F) : PeakEwma :=
  { ewma := initial_latency_ms, decay_alpha := decay_alpha, active_requests := 0 }

/-- `PeakEwma::get_ewma`: read the current moving average. -/
def PeakEwma.get_ewma (p : PeakEwma) : F :=
  p.ewma

/-- `PeakEwma::observe_latency(rtt_ms)`: one committed CAS update.
If the sample is greater than the current average, jump to the sample;
otherwise decay: `rtt_ms * (1 - alpha) + current * alpha`. -/
def PeakEwma.observe_latency (p : PeakEwma) (rtt_ms : F) : PeakEwma :=
  let current_ewma := p.ewma
  let next_ewma :=
    if rtt_ms.gt current_ewma then rtt_ms
    else (rtt_ms.mul ((F.val 1).sub p.decay_alpha)).add (current_ewma.mul p.decay_alpha)
  { p with ewma := next_ewma }

/-- `PeakEwma::increment_active`: increments the in-flight counter (the
state change performed when the returned `ActiveRequestGuard` is created). -/
def PeakEwma.increment_active (p : PeakEwma) : PeakEwma :=
  { p with active_requests := p.active_requests + 1 }

/-- `Drop for ActiveRequestGuard`: decrements the in-flight counter. -/
def PeakEwma.guard_drop (p : PeakEwma) : PeakEwma :=
  { p with active_requests := p.active_requests - 1 }

/-- `PeakEwma::calculate_score`: `(ewma + 1.0) * (active as f64 + 1.0)`. -/
def PeakEwma.calculate_score (p : PeakEwma) : F :=
  ((p.get_ewma).add (F.val 1)).mul ((F.val (p.active_requests : ℚ)).add (F.val 1))

/-- A sequence of `observe_latency` calls, applied left to right. -/
def ewma_run (p : PeakEwma) : List F → PeakEwma
  | [] => p
  | s :: rest => ewma_run (p.observe_latency s) rest

/-- `src/vortex-core/src/domain/backend.rs`: struct `Backend`.
`BackendId(u32)` becomes a natural number, `SocketAddr` an opaque string,
the `AtomicBool` healthy flag a plain `Bool`. -/
structure Backend where
  id : ℕ
  addr : String
  healthy : Bool
  ewma : PeakEwma
deriving DecidableEq, Repr

/-- `Backend::new(id, addr)`: healthy, EWMA baseline 50.0 ms, alpha 0.5. -/
def Backend.new (id : ℕ) (addr : String) : Backend :=
  { id := id, addr := addr, healthy := true
    ewma := PeakEwma.new (F.val 50) (F.val (1/2)) }

/-- `Backend::is_healthy`. -/
def Backend.is_healthy (b : Backend) : Bool :=
  b.healthy

/-- `Backend::set_healthy`. -/
def Backend.set_healthy (b : Backend) (is_healthy : Bool) : Backend :=
  { b with healthy := is_healthy }

/-- `src/vortex-core/src/domain/routing.rs`: struct `RoutingTable`.
The `ArcSwap<Vec<SharedBackend>>` holds one immutable list at a time;
a snapshot is that list by value, so a snapshot taken before a swap is a
value the swap cannot touch. -/
structure RoutingTable where
  backends : List Backend
deriving DecidableEq, Repr

/-- `RoutingTable::new(initial_backends)`. -/
def RoutingTable.new (initial_backends : List Backend) : RoutingTable :=
  { backends := initial_backends }

/-- `RoutingTable::update_backends(new_backends)`: the atomic whole-list swap. -/
def RoutingTable.update_backends (_t : RoutingTable) (new_backends : List Backend) :
    RoutingTable :=
  { backends := new_backends }

/-- `RoutingTable::snapshot`. -/
def RoutingTable.snapshot (t : RoutingTable) : List Backend :=
  t.backends

/-- The closure inside `select_best_backend`:
`score_a.partial_cmp(&score_b).unwrap_or(Ordering::Equal)`. -/
def cmpScores (a b : Backend) : Ordering :=
  (F.partialCmp a.ewma.calculate_score b.ewma.calculate_score).getD Ordering.eq

/-- One reduction step of Rust `Iterator::min_by` (that is, `cmp::min_by`):
keep the accumulator unless it compares `Greater` with the next element. -/
def minStep {α : Type} (cmp : α → α → Ordering) (acc y : α) : α :=
  if cmp acc y = Ordering.gt then y else acc

/-- Rust `Iterator::min_by`: reduce with `cmp::min_by`, so the first of equal
minima is kept. -/
def minByCmp {α : Type} (cmp : α → α → Ordering) : List α → Option α
  | [] => none
  | x :: xs => some (xs.foldl (minStep cmp) x)

/-- `src/vortex-core/src/load_balancer/selector.rs`: `select_best_backend`. -/
def select_best_backend (routing_table : RoutingTable) : Option Backend :=
  minByCmp cmpScores ((routing_table.snapshot).filter (fun b => b.is_healthy))

/-- `src/vortex-proxy/src/connection_pool/pool.rs`: an idle HTTP/1.1 sender.
Only its `is_closed` predicate matters to the pool; the flag is the value the
predicate reports at the moment the pool inspects the sender. -/
structure Sender where
  sid : ℕ
  closed : Bool
deriving DecidableEq, Repr

/-- `SendRequest::is_closed`. -/
def Sender.is_closed (s : Sender) : Bool :=
  s.closed

/-- `ConnectionPool`: the `DashMap<SocketAddr, SegQueue<SendRequest>>` becomes
an association list from address to FIFO queue (front of list = front of
queue, `push` appends at the back as `SegQueue::push` does). -/
structure ConnectionPool where
  idle_connections : List (String × List Sender)
deriving DecidableEq, Repr

/-- `ConnectionPool::new`. -/
def ConnectionPool.new : ConnectionPool :=
  { idle_connections := [] }

/-- The `while let Some(sender) = queue.pop()` loop inside `try_pop`:
pop until a sender that is not closed appears, discarding closed ones;
returns the sender found (if any) and the remaining queue. -/
def popLoop : List Sender → Option Sender × List Sender
  | [] => (none, [])
  | s :: rest => if s.is_closed then popLoop rest else (some s, rest)

/-- Replace (or insert) the queue stored for an address. -/
def setQueue : List (String × List Sender) → String → List Sender →
    List (String × List Sender)
  | [], a, q => [(a, q)]
  | (k, v) :: rest, a, q =>
      if k = a then (a, q) :: rest else (k, v) :: setQueue rest a q

/-- `ConnectionPool::try_pop(addr)`: look the queue up (no change when the
address is unknown), then run the pop loop; the mutated queue is written
back, modelling the in-place `SegQueue` pops. -/
def ConnectionPool.try_pop (pool : ConnectionPool) (addr : String) :
    Option Sender × ConnectionPool :=
  match pool.idle_connections.find? (fun kv => kv.fst = addr) with
  | none => (none, pool)
  | some kv =>
      ((popLoop kv.snd).fst,
        { idle_connections := setQueue pool.idle_connections addr (popLoop kv.snd).snd })

/-- `ConnectionPool::push(addr, sender)`: drop a closed sender; otherwise
get or create the per-address queue and push at the back. -/
def ConnectionPool.push (pool : ConnectionPool) (addr : String) (sender : Sender) :
    ConnectionPool :=
  if sender.is_closed then pool
  else
    { idle_connections := setQueue pool.idle_connections addr
        ((((pool.idle_connections.find? (fun kv => kv.fst = addr)).map
            Prod.snd).getD []) ++ [sender]) }

/-- Every sender held anywhere in the pool reports not closed. -/
def PoolInv (pool : ConnectionPool) : Prop :=
  ∀ kv ∈ pool.idle_connections, ∀ s ∈ kv.snd, s.is_closed = false

theorem F.nan_mul (x : F) : F.mul .nan x = .nan := by cases x <;> rfl

theorem F.nan_add (x : F) : F.add .nan x = .nan := by cases x <;> rfl

theorem F.gt_nan_left (x : F) : F.gt .nan x = false := by cases x <;> rfl

/-- On non-NaN state and sample the update computes the peak/decay formula. -/
theorem observe_latency_val (e a s : ℚ) (n : ℕ) :
    (PeakEwma.mk (F.val e) (F.val a) n).observe_latency (F.val s)
      = PeakEwma.mk (F.val (if e < s then s else s * (1 - a) + e * a)) (F.val a) n := by
  by_cases h : e < s <;>
    simp [PeakEwma.observe_latency, F.gt, F.mul, F.sub, F.add, h]

/-- The read-back form of the update rule, for any tracker state whose fields
hold the given rationals. -/
theorem observe_get_val (p : PeakEwma) (e a s : ℚ)
    (hp : p.get_ewma = F.val e) (ha : p.decay_alpha = F.val a) :
    (p.observe_latency (F.val s)).get_ewma
      = F.val (if e < s then s else s * (1 - a) + e * a) := by
  obtain ⟨ew, da, n⟩ := p
  simp only [PeakEwma.get_ewma] at hp
  simp only at ha
  subst hp; subst ha
  rw [observe_latency_val]
  rfl

/-- Claim C1: with current average e and decay factor alpha, observing sample s
stores s when s is greater than e and otherwise stores the weighted decay
value s * (1 - alpha) + e * alpha, and get_ewma then reads that new value. -/
theorem observe_latency_update_rule (p : PeakEwma) (e a s : ℚ)
    (hp : p.get_ewma = F.val e) (ha : p.decay_alpha = F.val a) :
    (p.observe_latency (F.val s)).get_ewma
      = F.val (if e < s then s else s * (1 - a) + e * a) :=
  observe_get_val p e a s hp ha

theorem observe_latency_update_rule_witness :
    ((PeakEwma.new (F.val 100) (F.val (1/2))).observe_latency (F.val 50)).get_ewma
      = F.val (if (100:ℚ) < 50 then 50 else 50 * (1 - 1/2) + 100 * (1/2)) :=
  observe_latency_update_rule _ 100 (1/2) 50 rfl rfl

/-- Claim C3: calculate_score returns (ewma + 1) * (active_requests + 1);
a tracker built with initial latency 10 scores 22 with one outstanding guard
and 11 with none. -/
theorem calculate_score_spec :
    (∀ (p : PeakEwma) (e : ℚ), p.get_ewma = F.val e →
      p.calculate_score = F.val ((e + 1) * ((p.active_requests : ℚ) + 1)))
    ∧ (PeakEwma.new (F.val 10) (F.val (1/2))).increment_active.calculate_score
        = F.val 22
    ∧ (PeakEwma.new (F.val 10) (F.val (1/2))).calculate_score = F.val 11 := by
  refine ⟨fun p e hp => ?_, ?_, ?_⟩
  · simp [PeakEwma.calculate_score, hp, F.add, F.mul]
  · norm_num [PeakEwma.new, PeakEwma.increment_active, PeakEwma.calculate_score,
      PeakEwma.get_ewma, F.mul, F.add]
  · norm_num [PeakEwma.new, PeakEwma.calculate_score, PeakEwma.get_ewma, F.mul, F.add]

theorem calculate_score_spec_witness :
    (PeakEwma.new (F.val 10) (F.val (1/2))).calculate_score
      = F.val ((10 + 1)
          * (((PeakEwma.new (F.val 10) (F.val (1/2))).active_requests : ℚ) + 1)) :=
  calculate_score_spec.1 _ 10 rfl

/-- Claim C5: after update_backends(new), snapshot() returns exactly new in
order; a snapshot value captured before the swap is untouched by it (in this
pure embedding a captured snapshot is an immutable list, which models the
ArcSwap guarantee that readers keep the old vector alive and unchanged). -/
theorem routing_update_snapshot (t : RoutingTable) (nb old : List Backend)
    (hold : t.snapshot = old) :
    (t.update_backends nb).snapshot = nb ∧ t.snapshot = old :=
  ⟨rfl, hold⟩

theorem routing_update_snapshot_witness :
    ((RoutingTable.new [Backend.new 1 "a", Backend.new 2 "b"]).update_backends
        [Backend.new 3 "c"]).snapshot = [Backend.new 3 "c"]
    ∧ (RoutingTable.new [Backend.new 1 "a", Backend.new 2 "b"]).snapshot
        = [Backend.new 1 "a", Backend.new 2 "b"] :=
  routing_update_snapshot (RoutingTable.new [Backend.new 1 "a", Backend.new 2 "b"])
    [Backend.new 3 "c"] [Backend.new 1 "a", Backend.new 2 "b"] rfl

/-- Claim C8 fails on the code: a negative sample is not clamped to zero
(observing -10 over average 50 with alpha 0.5 yields 20, while clamping would
yield 25), and a NaN sample is not ignored (the stored average becomes NaN,
not the previous 50). -/
theorem observe_latency_clamp_counterexample :
    ((PeakEwma.new (F.val 50) (F.val (1/2))).observe_latency (F.val (-10))).get_ewma
        = F.val 20
    ∧ ((PeakEwma.new (F.val 50) (F.val (1/2))).observe_latency
          (F.val 0)).get_ewma = F.val 25
    ∧ F.val (20:ℚ) ≠ F.val 25
    ∧ ((PeakEwma.new (F.val 50) (F.val (1/2))).observe_latency F.nan).get_ewma = F.nan
    ∧ F.nan ≠ F.val 50 := by
  refine ⟨?_, ?_, by simp, ?_, by simp⟩
  · norm_num [PeakEwma.new, PeakEwma.observe_latency, PeakEwma.get_ewma,
      F.gt, F.mul, F.sub, F.add]
  · norm_num [PeakEwma.new, PeakEwma.observe_latency, PeakEwma.get_ewma,
      F.gt, F.mul, F.sub, F.add]
  · simp [PeakEwma.new, PeakEwma.observe_latency, PeakEwma.get_ewma,
      F.gt_nan_left, F.nan_mul, F.nan_add]

/-- Claim C8 amended: observe_latency is total and never fails; a negative
sample is fed into the decay formula unclamped (for s < 0 and current average
e at least 0 the new average is s * (1 - alpha) + e * alpha), and a NaN sample
sets the stored average to NaN instead of being ignored. -/
theorem observe_latency_negative_nan (p : PeakEwma) (e a s : ℚ)
    (hp : p.get_ewma = F.val e) (ha : p.decay_alpha = F.val a)
    (hs : s < 0) (he : 0 ≤ e) :
    (p.observe_latency (F.val s)).get_ewma = F.val (s * (1 - a) + e * a)
    ∧ ∀ q : PeakEwma, (q.observe_latency F.nan).get_ewma = F.nan := by
  constructor
  · rw [observe_get_val p e a s hp ha, if_neg (by linarith)]
  · intro q
    simp [PeakEwma.observe_latency, PeakEwma.get_ewma,
      F.gt_nan_left, F.nan_mul, F.nan_add]

theorem observe_latency_negative_nan_witness :
    ((PeakEwma.new (F.val 50) (F.val (1/2))).observe_latency (F.val (-10))).get_ewma
      = F.val ((-10) * (1 - 1/2) + 50 * (1/2)) :=
  (observe_latency_negative_nan (PeakEwma.new (F.val 50) (F.val (1/2))) 50 (1/2) (-10)
    rfl rfl (by norm_num) (by norm_num)).1

/-- One update keeps the new average between the sample and the old average. -/
theorem step_bounds (e a s : ℚ) (ha0 : 0 < a) (ha1 : a < 1) :
    min s e ≤ (if e < s then s else s * (1 - a) + e * a)
    ∧ (if e < s then s else s * (1 - a) + e * a) ≤ max s e := by
  by_cases h : e < s
  · rw [if_pos h]
    exact ⟨min_le_left s e, le_max_left s e⟩
  · rw [if_neg h]
    push_neg at h
    rw [min_eq_left h, max_eq_right h]
    constructor
    · nlinarith [mul_nonneg ha0.le (sub_nonneg.mpr h)]
    · nlinarith [mul_nonneg (by linarith : (0:ℚ) ≤ 1 - a) (sub_nonneg.mpr h)]

/-- One update from a positive average on a non-negative sample stays positive. -/
theorem step_pos (e a s : ℚ) (ha0 : 0 < a) (ha1 : a < 1) (he : 0 < e) (hs : 0 ≤ s) :
    0 < (if e < s then s else s * (1 - a) + e * a) := by
  by_cases h : e < s
  · rw [if_pos h]; linarith
  · rw [if_neg h]
    have h1 : 0 ≤ s * (1 - a) := mul_nonneg hs (by linarith)
    have h2 : 0 < e * a := mul_pos he ha0
    linarith

theorem foldl_max_mono (l : List ℚ) :
    ∀ x y : ℚ, x ≤ y → l.foldl max x ≤ l.foldl max y := by
  induction l with
  | nil => intro x y h; simpa using h
  | cons s rest ih => intro x y h; exact ih _ _ (max_le_max h le_rfl)

theorem ewma_run_append (p : PeakEwma) (l1 l2 : List F) :
    ewma_run p (l1 ++ l2) = ewma_run (ewma_run p l1) l2 := by
  induction l1 generalizing p with
  | nil => rfl
  | cons x xs ih => exact ih _

/-- Running the tracker over non-NaN, non-negative samples from a positive
average keeps a positive rational average bounded by the running maximum. -/
theorem ewma_run_val (a : ℚ) (ha0 : 0 < a) (ha1 : a < 1) :
    ∀ (l : List ℚ) (e : ℚ) (n : ℕ), (∀ s ∈ l, 0 ≤ s) → 0 < e →
      ∃ e1, ewma_run (PeakEwma.mk (F.val e) (F.val a) n) (l.map F.val)
          = PeakEwma.mk (F.val e1) (F.val a) n
        ∧ 0 < e1 ∧ e1 ≤ l.foldl max e := by
  intro l
  induction l with
  | nil => intro e n _ he; exact ⟨e, rfl, he, le_refl e⟩
  | cons s rest ih =>
    intro e n hl he
    have hs : 0 ≤ s := hl s (List.mem_cons_self _ _)
    have hrest : ∀ x ∈ rest, 0 ≤ x := fun x hx => hl x (List.mem_cons_of_mem _ hx)
    obtain ⟨e1, h1, h2, h3⟩ :=
      ih (if e < s then s else s * (1 - a) + e * a) n hrest
        (step_pos e a s ha0 ha1 he hs)
    refine ⟨e1, ?_, h2, ?_⟩
    · rw [List.map_cons]
      show ewma_run ((PeakEwma.mk (F.val e) (F.val a) n).observe_latency (F.val s))
          (rest.map F.val) = _
      rw [observe_latency_val]
      exact h1
    · have hb := (step_bounds e a s ha0 ha1).2
      calc e1 ≤ rest.foldl max (if e < s then s else s * (1 - a) + e * a) := h3
        _ ≤ rest.foldl max (max e s) :=
            foldl_max_mono rest _ _ (by rw [max_comm e s]; exact hb)
        _ = (s :: rest).foldl max e := rfl

/-- Claim C4: starting from a positive average with alpha in (0,1) and
observing non-negative samples, each update lands between the step's prior
average and its sample, stays strictly positive, and never exceeds the
maximum of the initial average and all samples observed so far. -/
theorem ewma_sequence_invariants (e0 a s : ℚ) (samples pre post : List ℚ)
    (he0 : 0 < e0) (ha0 : 0 < a) (ha1 : a < 1)
    (hsamp : ∀ x ∈ samples, 0 ≤ x) (hsplit : samples = pre ++ s :: post) :
    ∃ e e1,
      (ewma_run (PeakEwma.new (F.val e0) (F.val a)) (pre.map F.val)).get_ewma = F.val e
      ∧ (ewma_run (PeakEwma.new (F.val e0) (F.val a)) ((pre ++ [s]).map F.val)).get_ewma
          = F.val e1
      ∧ min s e ≤ e1 ∧ e1 ≤ max s e
      ∧ 0 < e1 ∧ e1 ≤ (pre ++ [s]).foldl max e0 := by
  have hpre : ∀ x ∈ pre, 0 ≤ x := fun x hx =>
    hsamp x (hsplit ▸ List.mem_append_left _ hx)
  have hs : 0 ≤ s :=
    hsamp s (hsplit ▸ List.mem_append_right _ (List.mem_cons_self _ _))
  obtain ⟨e, h1, h2, h3⟩ := ewma_run_val a ha0 ha1 pre e0 0 hpre he0
  have h1' : ewma_run (PeakEwma.new (F.val e0) (F.val a)) (pre.map F.val)
      = PeakEwma.mk (F.val e) (F.val a) 0 := h1
  refine ⟨e, if e < s then s else s * (1 - a) + e * a, ?_, ?_, ?_, ?_, ?_, ?_⟩
  · rw [h1']; rfl
  · rw [List.map_append, ewma_run_append, h1']
    show ((PeakEwma.mk (F.val e) (F.val a) 0).observe_latency (F.val s)).get_ewma = _
    rw [observe_latency_val]
    rfl
  · exact (step_bounds e a s ha0 ha1).1
  · exact (step_bounds e a s ha0 ha1).2
  · exact step_pos e a s ha0 ha1 h2 hs
  · have hb := (step_bounds e a s ha0 ha1).2
    have hm : max s e ≤ max s (pre.foldl max e0) := max_le_max le_rfl h3
    have hfold : (pre ++ [s]).foldl max e0 = max (pre.foldl max e0) s := by
      rw [List.foldl_append]
      rfl
    rw [hfold, max_comm (pre.foldl max e0) s]
    exact le_trans hb hm

theorem ewma_sequence_invariants_witness :
    ∃ e e1,
      (ewma_run (PeakEwma.new (F.val 2) (F.val (1/2)))
        (([] : List ℚ).map F.val)).get_ewma = F.val e
      ∧ (ewma_run (PeakEwma.new (F.val 2) (F.val (1/2)))
          ((([] : List ℚ) ++ [(1:ℚ)]).map F.val)).get_ewma = F.val e1
      ∧ min (1:ℚ) e ≤ e1 ∧ e1 ≤ max (1:ℚ) e
      ∧ 0 < e1 ∧ e1 ≤ (([] : List ℚ) ++ [(1:ℚ)]).foldl max 2 :=
  ewma_sequence_invariants 2 (1/2) 1 [1] [] [] (by norm_num) (by norm_num)
    (by norm_num) (by intro x hx; simp at hx; simp [hx]) rfl

/-- The min_by fold always returns one of the candidates. -/
theorem foldl_minStep_mem {α : Type} (cmp : α → α → Ordering) (xs : List α) (x : α) :
    xs.foldl (minStep cmp) x ∈ x :: xs := by
  induction xs generalizing x with
  | nil => simp
  | cons y ys ih =>
    have h := ih (minStep cmp x y)
    simp only [List.foldl_cons]
    rcases List.mem_cons.mp h with h1 | h1
    · rw [h1]
      unfold minStep
      by_cases hc : cmp x y = Ordering.gt
      · simp [hc]
      · simp [hc]
    · simp [h1]

/-- When the comparator agrees with a rational score function on the
candidates, the min_by fold returns the first candidate achieving the minimum
score: its score is a lower bound for all candidates, and every candidate
strictly before it in the list has a strictly greater score. -/
theorem foldl_minStep_min_first {α : Type} (cmp : α → α → Ordering) (f : α → ℚ)
    (L : List α) (hcmp : ∀ p ∈ L, ∀ q ∈ L, (cmp p q = Ordering.gt ↔ f q < f p)) :
    ∀ (xs : List α) (x : α), x ∈ L → (∀ y ∈ xs, y ∈ L) →
      (∀ c ∈ x :: xs, f (xs.foldl (minStep cmp) x) ≤ f c)
      ∧ ∃ l1 l2, x :: xs = l1 ++ (xs.foldl (minStep cmp) x) :: l2
          ∧ ∀ c ∈ l1, f (xs.foldl (minStep cmp) x) < f c := by
  intro xs
  induction xs with
  | nil =>
    intro x _ _
    refine ⟨fun c hc => ?_, [], [], rfl, by simp⟩
    simp only [List.foldl_nil]
    simp at hc
    rw [hc]
  | cons y ys ih =>
    intro x hx hys
    have hyL : y ∈ L := hys y (List.mem_cons_self _ _)
    have hysL : ∀ z ∈ ys, z ∈ L := fun z hz => hys z (List.mem_cons_of_mem _ hz)
    simp only [List.foldl_cons]
    by_cases h : cmp x y = Ordering.gt
    · have hstep : minStep cmp x y = y := if_pos h
      have hfy : f y < f x := (hcmp x hx y hyL).mp h
      rw [hstep]
      obtain ⟨hmin, l1, l2, hdec, hstrict⟩ := ih y hyL hysL
      have hry : f (ys.foldl (minStep cmp) y) ≤ f y := hmin y (List.mem_cons_self _ _)
      refine ⟨fun c hc => ?_, x :: l1, l2, ?_, fun c hc => ?_⟩
      · rcases List.mem_cons.mp hc with h1 | h1
        · rw [h1]; exact le_trans hry hfy.le
        · exact hmin c h1
      · rw [List.cons_append, ← hdec]
      · rcases List.mem_cons.mp hc with h1 | h1
        · rw [h1]; exact lt_of_le_of_lt hry hfy
        · exact hstrict c h1
    · have hstep : minStep cmp x y = x := if_neg h
      have hxy : f x ≤ f y := not_lt.mp (fun hlt => h ((hcmp x hx y hyL).mpr hlt))
      rw [hstep]
      obtain ⟨hmin, l1, l2, hdec, hstrict⟩ := ih x hx hysL
      have hrx : f (ys.foldl (minStep cmp) x) ≤ f x := hmin x (List.mem_cons_self _ _)
      refine ⟨fun c hc => ?_, ?_⟩
      · rcases List.mem_cons.mp hc with h1 | h1
        · rw [h1]; exact hrx
        · rcases List.mem_cons.mp h1 with h2 | h2
          · rw [h2]; exact le_trans hrx hxy
          · exact hmin c (List.mem_cons_of_mem _ h2)
      · cases l1 with
        | nil =>
          simp only [List.nil_append] at hdec
          obtain ⟨hr, hl2⟩ := List.cons.inj hdec
          refine ⟨[], y :: ys, ?_, by simp⟩
          rw [List.nil_append, ← hr]
        | cons z l1t =>
          simp only [List.cons_append] at hdec
          obtain ⟨hz, hys2⟩ := List.cons.inj hdec
          have hrltx : f (ys.foldl (minStep cmp) x) < f x := by
            have h3 := hstrict z (List.mem_cons_self _ _)
            rwa [← hz] at h3
          refine ⟨x :: y :: l1t, l2, ?_, fun c hc => ?_⟩
          · rw [List.cons_append, List.cons_append, ← hys2]
          · rcases List.mem_cons.mp hc with h1 | h1
            · rw [h1]; exact hrltx
            · rcases List.mem_cons.mp h1 with h2 | h2
              · rw [h2]; exact lt_of_lt_of_le hrltx hxy
              · exact hstrict c (List.mem_cons_of_mem _ h2)

/-- The comparator used by the selector, on non-NaN scores, reports Greater
exactly when the first score is strictly larger. -/
theorem cmpScores_val (a b : Backend) (qa qb : ℚ)
    (hqa : a.ewma.calculate_score = F.val qa) (hqb : b.ewma.calculate_score = F.val qb) :
    cmpScores a b = Ordering.gt ↔ qb < qa := by
  unfold cmpScores
  rw [hqa, hqb]
  show (some (if qa < qb then Ordering.lt else if qa = qb then Ordering.eq
      else Ordering.gt)).getD Ordering.eq = Ordering.gt ↔ qb < qa
  rw [Option.getD_some]
  rcases lt_trichotomy qa qb with h | h | h
  · rw [if_pos h]
    constructor
    · intro hc; exact absurd hc (by decide)
    · intro hlt; exact absurd (h.trans hlt) (lt_irrefl qa)
  · rw [if_neg (by simp [h]), if_pos h]
    constructor
    · intro hc; exact absurd hc (by decide)
    · intro hlt; rw [h] at hlt; exact absurd hlt (lt_irrefl qb)
  · rw [if_neg (not_lt.mpr h.le), if_neg (ne_of_gt h)]
    simp [h]

/-- A sender produced by the pop loop reports not closed. -/
theorem popLoop_fst_not_closed : ∀ (q : List Sender) (s : Sender),
    (popLoop q).fst = some s → s.is_closed = false := by
  intro q
  induction q with
  | nil => intro s h; simp [popLoop] at h
  | cons x rest ih =>
    intro s h
    by_cases hc : x.is_closed = true
    · simp only [popLoop, if_pos hc] at h
      exact ih s h
    · simp only [popLoop, if_neg hc] at h
      simp only [Bool.not_eq_true] at hc
      rw [← Option.some.inj h]
      exact hc

/-- The queue left behind by the pop loop only holds senders it saw. -/
theorem popLoop_snd_mem : ∀ (q : List Sender) (s : Sender),
    s ∈ (popLoop q).snd → s ∈ q := by
  intro q
  induction q with
  | nil => intro s h; simp [popLoop] at h
  | cons x rest ih =>
    intro s h
    by_cases hc : x.is_closed = true
    · simp only [popLoop, if_pos hc] at h
      exact List.mem_cons_of_mem _ (ih s h)
    · simp only [popLoop, if_neg hc] at h
      exact List.mem_cons_of_mem _ h

/-- Writing one queue back touches no other entry. -/
theorem setQueue_mem : ∀ (m : List (String × List Sender)) (a : String)
    (q : List Sender) (kv : String × List Sender),
    kv ∈ setQueue m a q → kv = (a, q) ∨ kv ∈ m := by
  intro m
  induction m with
  | nil =>
    intro a q kv h
    simp only [setQueue, List.mem_singleton] at h
    exact Or.inl h
  | cons hd tl ih =>
    obtain ⟨k, v⟩ := hd
    intro a q kv h
    simp only [setQueue] at h
    by_cases hk : k = a
    · rw [if_pos hk] at h
      rcases List.mem_cons.mp h with h1 | h1
      · exact Or.inl h1
      · exact Or.inr (List.mem_cons_of_mem _ h1)
    · rw [if_neg hk] at h
      rcases List.mem_cons.mp h with h1 | h1
      · exact Or.inr (h1 ▸ List.mem_cons_self _ _)
      · rcases ih a q kv h1 with h2 | h2
        · exact Or.inl h2
        · exact Or.inr (List.mem_cons_of_mem _ h2)

/-- Claim C6: try_pop never hands out a sender that reports closed at pop
time (closed senders found in a queue are discarded); push drops a closed
sender leaving the pool unchanged; and the invariant that every sender held
in the pool was not known-closed when pushed holds of the empty pool and is
preserved by push and try_pop. -/
theorem pool_closed_sender_spec :
    (∀ (pool : ConnectionPool) (addr : String) (s : Sender),
      (pool.try_pop addr).fst = some s → s.is_closed = false)
    ∧ (∀ (pool : ConnectionPool) (addr : String) (s : Sender),
        s.is_closed = true → pool.push addr s = pool)
    ∧ PoolInv ConnectionPool.new
    ∧ (∀ (pool : ConnectionPool) (addr : String) (s : Sender),
        PoolInv pool → PoolInv (pool.push addr s))
    ∧ (∀ (pool : ConnectionPool) (addr : String),
        PoolInv pool → PoolInv (pool.try_pop addr).snd) := by
  refine ⟨?_, ?_, ?_, ?_, ?_⟩
  · intro pool addr s h
    unfold ConnectionPool.try_pop at h
    cases hfind : pool.idle_connections.find? (fun kv => kv.fst = addr) with
    | none => rw [hfind] at h; simp at h
    | some kv =>
      rw [hfind] at h
      exact popLoop_fst_not_closed kv.snd s h
  · intro pool addr s h
    unfold ConnectionPool.push
    rw [if_pos h]
  · intro kv hkv
    exact absurd hkv (List.not_mem_nil kv)
  · intro pool addr s hinv
    unfold ConnectionPool.push
    by_cases hc : s.is_closed = true
    · rw [if_pos hc]; exact hinv
    · rw [if_neg hc]
      intro kv hkv x hx
      rcases setQueue_mem _ _ _ _ hkv with h1 | h1
      · rw [h1] at hx
        rcases List.mem_append.mp hx with h2 | h2
        · cases hfind : pool.idle_connections.find? (fun kv => kv.fst = addr) with
          | none =>
            rw [hfind] at h2
            exact absurd h2 (List.not_mem_nil x)
          | some kv0 =>
            rw [hfind] at h2
            exact hinv kv0 (List.mem_of_find?_eq_some hfind) x h2
        · simp only [List.mem_singleton] at h2
          rw [h2]
          simpa using hc
      · exact hinv kv h1 x hx
  · intro pool addr hinv
    unfold ConnectionPool.try_pop
    cases hfind : pool.idle_connections.find? (fun kv => kv.fst = addr) with
    | none => exact hinv
    | some kv =>
      intro kv2 hkv2 x hx
      rcases setQueue_mem _ _ _ _ hkv2 with h1 | h1
      · rw [h1] at hx
        have hq : x ∈ kv.snd := popLoop_snd_mem kv.snd x hx
        exact hinv kv (List.mem_of_find?_eq_some hfind) x hq
      · exact hinv kv2 h1 x hx

theorem pool_closed_sender_spec_witness :
    (({ idle_connections :=
        [("a", [Sender.mk 0 true, Sender.mk 1 false])] } : ConnectionPool).try_pop
          "a").fst = some (Sender.mk 1 false)
    ∧ (Sender.mk 1 false).is_closed = false :=
  ⟨rfl, pool_closed_sender_spec.1
    { idle_connections := [("a", [Sender.mk 0 true, Sender.mk 1 false])] } "a"
    (Sender.mk 1 false) rfl⟩

theorem minByCmp_eq_none {α : Type} (cmp : α → α → Ordering) (l : List α) :
    minByCmp cmp l = none ↔ l = [] := by
  cases l <;> simp [minByCmp]

theorem minByCmp_mem {α : Type} (cmp : α → α → Ordering) (l : List α) (b : α)
    (h : minByCmp cmp l = some b) : b ∈ l := by
  cases l with
  | nil => simp [minByCmp] at h
  | cons x xs =>
    simp only [minByCmp, Option.some.injEq] at h
    rw [← h]
    exact foldl_minStep_mem cmp xs x

theorem minByCmp_min_first {α : Type} (cmp : α → α → Ordering) (f : α → ℚ)
    (l : List α) (hcmp : ∀ p ∈ l, ∀ q ∈ l, (cmp p q = Ordering.gt ↔ f q < f p))
    (b : α) (h : minByCmp cmp l = some b) :
    (∀ c ∈ l, f b ≤ f c) ∧ ∃ l1 l2, l = l1 ++ b :: l2 ∧ ∀ c ∈ l1, f b < f c := by
  cases l with
  | nil => simp [minByCmp] at h
  | cons x xs =>
    simp only [minByCmp, Option.some.injEq] at h
    obtain ⟨hmin, l1, l2, hdec, hstrict⟩ :=
      foldl_minStep_min_first cmp f (x :: xs) hcmp xs x (List.mem_cons_self _ _)
        (fun y hy => List.mem_cons_of_mem _ hy)
    rw [h] at hmin hdec hstrict
    exact ⟨hmin, l1, l2, hdec, hstrict⟩

/-- On the healthy-filtered snapshot, the selector comparator agrees with the
rational value of each score, provided the healthy scores are non-NaN. -/
theorem cmpScores_filter_agree (t : RoutingTable)
    (hval : ∀ b ∈ t.snapshot, b.is_healthy = true →
      ∃ q, b.ewma.calculate_score = F.val q) :
    ∀ p ∈ t.snapshot.filter (fun x => x.is_healthy),
      ∀ q ∈ t.snapshot.filter (fun x => x.is_healthy),
        (cmpScores p q = Ordering.gt ↔
          (q.ewma.calculate_score).toQ < (p.ewma.calculate_score).toQ) := by
  intro p hp q hq
  obtain ⟨qp, hqp⟩ := hval p (List.mem_filter.mp hp).1 (List.mem_filter.mp hp).2
  obtain ⟨qq, hqq⟩ := hval q (List.mem_filter.mp hq).1 (List.mem_filter.mp hq).2
  rw [hqp, hqq]
  simp only [F.toQ]
  exact cmpScores_val p q qp qq hqp hqq

/-- A Greater verdict from the selector comparator forces both scores to be
non-NaN rationals in strict order. -/
theorem cmpScores_gt_inv (a c : Backend) (h : cmpScores a c = Ordering.gt) :
    ∃ qa qc, a.ewma.calculate_score = F.val qa ∧ c.ewma.calculate_score = F.val qc
      ∧ qc < qa := by
  cases ha : a.ewma.calculate_score with
  | nan =>
    unfold cmpScores at h
    rw [ha] at h
    cases hc : c.ewma.calculate_score with
    | nan => rw [hc] at h; simp [F.partialCmp] at h
    | val qc => rw [hc] at h; simp [F.partialCmp] at h
  | val qa =>
    cases hc : c.ewma.calculate_score with
    | nan =>
      unfold cmpScores at h
      rw [ha, hc] at h
      simp [F.partialCmp] at h
    | val qc =>
      exact ⟨qa, qc, rfl, rfl, (cmpScores_val a c qa qc ha hc).mp h⟩

/-- Once the min_by accumulator has a NaN score it is kept to the end,
because every comparison against it yields Equal. -/
theorem foldl_minStep_nan (xs : List Backend) (acc : Backend)
    (h : acc.ewma.calculate_score = F.nan) :
    xs.foldl (minStep cmpScores) acc = acc := by
  induction xs with
  | nil => rfl
  | cons y ys ih =>
    have hne : ¬(cmpScores acc y = Ordering.gt) := fun hgt => by
      obtain ⟨qa, _, hqa, _, _⟩ := cmpScores_gt_inv acc y hgt
      rw [h] at hqa
      exact F.noConfusion hqa
    rw [List.foldl_cons]
    rw [show minStep cmpScores acc y = acc from if_neg hne]
    exact ih

/-- When the min_by fold ends on a rational score, that score is a lower
bound for the starting accumulator and for every rationally-scored element,
NaN-scored elements notwithstanding. -/
theorem foldl_minStep_val_min (xs : List Backend) : ∀ (acc : Backend) (qr : ℚ),
    ((xs.foldl (minStep cmpScores) acc)).ewma.calculate_score = F.val qr →
    (∀ qa, acc.ewma.calculate_score = F.val qa → qr ≤ qa)
    ∧ (∀ c ∈ xs, ∀ qc, c.ewma.calculate_score = F.val qc → qr ≤ qc) := by
  induction xs with
  | nil =>
    intro acc qr hr
    refine ⟨fun qa hqa => ?_, fun c hc => absurd hc (List.not_mem_nil c)⟩
    simp only [List.foldl_nil] at hr
    rw [hqa] at hr
    exact le_of_eq (F.val.inj hr).symm
  | cons y ys ih =>
    intro acc qr hr
    simp only [List.foldl_cons] at hr ⊢
    by_cases hgt : cmpScores acc y = Ordering.gt
    · rw [show minStep cmpScores acc y = y from if_pos hgt] at hr
      obtain ⟨qa0, qy, hqa0, hqy, hlt⟩ := cmpScores_gt_inv acc y hgt
      obtain ⟨ih1, ih2⟩ := ih y qr hr
      have hry : qr ≤ qy := ih1 qy hqy
      refine ⟨fun qa hqa => ?_, fun c hc qc hqc => ?_⟩
      · rw [hqa0] at hqa
        rw [← F.val.inj hqa]
        exact le_of_lt (lt_of_le_of_lt hry hlt)
      · rcases List.mem_cons.mp hc with h1 | h1
        · rw [h1, hqy] at hqc
          rw [← F.val.inj hqc]
          exact hry
        · exact ih2 c h1 qc hqc
    · rw [show minStep cmpScores acc y = acc from if_neg hgt] at hr
      obtain ⟨ih1, ih2⟩ := ih acc qr hr
      refine ⟨ih1, fun c hc qc hqc => ?_⟩
      rcases List.mem_cons.mp hc with h1 | h1
      · cases hacc : acc.ewma.calculate_score with
        | nan =>
          rw [foldl_minStep_nan ys acc hacc, hacc] at hr
          exact F.noConfusion hr
        | val qa0 =>
          have hle : qa0 ≤ qc := by
            by_contra hlt
            push_neg at hlt
            exact hgt ((cmpScores_val acc y qa0 qc hacc (h1 ▸ hqc)).mpr hlt)
          exact le_trans (ih1 qa0 hacc) hle
      · exact ih2 c h1 qc hqc

/-- Claim C2: select_best_backend returns none exactly when no backend of the
snapshot is healthy, and any backend it returns is a healthy member of the
snapshot whose score is least among the healthy backends, for every snapshot
and every combination of healthy flags (minimality quantified over rational,
that is non-NaN, score values). -/
theorem select_best_backend_spec (t : RoutingTable) :
    (select_best_backend t = none ↔ ∀ b ∈ t.snapshot, b.is_healthy = false)
    ∧ ∀ b, select_best_backend t = some b →
        b ∈ t.snapshot ∧ b.is_healthy = true
        ∧ ∀ c ∈ t.snapshot, c.is_healthy = true →
            ∀ qb qc, b.ewma.calculate_score = F.val qb →
              c.ewma.calculate_score = F.val qc → qb ≤ qc := by
  constructor
  · rw [show select_best_backend t
        = minByCmp cmpScores (t.snapshot.filter (fun b => b.is_healthy)) from rfl,
      minByCmp_eq_none, List.filter_eq_nil_iff]
    constructor
    · intro h b hb
      have := h b hb
      simpa using this
    · intro h b hb
      simp [h b hb]
  · intro b hb
    have hmem : b ∈ t.snapshot.filter (fun x => x.is_healthy) :=
      minByCmp_mem _ _ _ hb
    have hmem2 := List.mem_filter.mp hmem
    refine ⟨hmem2.1, hmem2.2, ?_⟩
    intro c hc hch qb qc hqb hqc
    cases hfil : t.snapshot.filter (fun x => x.is_healthy) with
    | nil =>
      have hb2 : minByCmp cmpScores ([] : List Backend) = some b := by
        rw [← hfil]; exact hb
      exact absurd hb2 (by simp [minByCmp])
    | cons x xs =>
      have hb2 : xs.foldl (minStep cmpScores) x = b := by
        have hsome : minByCmp cmpScores (x :: xs) = some b := by
          rw [← hfil]; exact hb
        simpa [minByCmp] using hsome
      have hcmem : c ∈ x :: xs := by
        rw [← hfil]; exact List.mem_filter.mpr ⟨hc, hch⟩
      obtain ⟨h1, h2⟩ := foldl_minStep_val_min xs x qb (by rw [hb2]; exact hqb)
      rcases List.mem_cons.mp hcmem with hcx | hcxs
      · exact h1 qc (hcx ▸ hqc)
      · exact h2 c hcxs qc hqc

theorem select_best_backend_spec_witness :
    (select_best_backend (RoutingTable.new [Backend.new 1 "a", Backend.new 2 "b"]) = none
      ↔ ∀ b ∈ (RoutingTable.new [Backend.new 1 "a", Backend.new 2 "b"]).snapshot,
          b.is_healthy = false)
    ∧ ∀ b, select_best_backend (RoutingTable.new [Backend.new 1 "a", Backend.new 2 "b"])
          = some b →
        b ∈ (RoutingTable.new [Backend.new 1 "a", Backend.new 2 "b"]).snapshot
        ∧ b.is_healthy = true
        ∧ ∀ c ∈ (RoutingTable.new [Backend.new 1 "a", Backend.new 2 "b"]).snapshot,
            c.is_healthy = true →
            ∀ qb qc, b.ewma.calculate_score = F.val qb →
              c.ewma.calculate_score = F.val qc → qb ≤ qc :=
  select_best_backend_spec (RoutingTable.new [Backend.new 1 "a", Backend.new 2 "b"])

/-- Claim C7 fails on the code: with two healthy backends of equal score
listed as ids 2 then 1, the selector returns the backend with id 2 (the
first in snapshot order), not the smallest BackendId. -/
theorem tie_break_counterexample :
    (Backend.new 2 "a").ewma.calculate_score = (Backend.new 1 "b").ewma.calculate_score
    ∧ select_best_backend (RoutingTable.new [Backend.new 2 "a", Backend.new 1 "b"])
        = some (Backend.new 2 "a")
    ∧ (Backend.new 2 "a").id = 2 ∧ (Backend.new 1 "b").id = 1 := by
  refine ⟨rfl, ?_, rfl, rfl⟩
  show minByCmp cmpScores [Backend.new 2 "a", Backend.new 1 "b"]
      = some (Backend.new 2 "a")
  simp only [minByCmp, List.foldl_cons, List.foldl_nil, minStep, Option.some.injEq]
  rw [if_neg ?_]
  intro hgt
  rw [cmpScores_val (Backend.new 2 "a") (Backend.new 1 "b")
    ((50 + 1) * (((0:ℕ) : ℚ) + 1)) ((50 + 1) * (((0:ℕ) : ℚ) + 1)) rfl rfl] at hgt
  exact absurd hgt (lt_irrefl _)

/-- Claim C7 amended: when several healthy backends tie for the minimum
score, select_best_backend returns the first of them in snapshot order
(Iterator::min_by keeps the earlier element on an Equal comparison); the
BackendId plays no part in the choice. Every healthy backend strictly
earlier in the snapshot than the returned one has a strictly greater score. -/
theorem select_tie_break_first (t : RoutingTable)
    (hval : ∀ b ∈ t.snapshot, b.is_healthy = true →
      ∃ q, b.ewma.calculate_score = F.val q)
    (b : Backend) (hb : select_best_backend t = some b) :
    ∃ l1 l2, t.snapshot.filter (fun x => x.is_healthy) = l1 ++ b :: l2
      ∧ ∀ c ∈ l1,
          (b.ewma.calculate_score).toQ < (c.ewma.calculate_score).toQ := by
  obtain ⟨_, l1, l2, hdec, hstrict⟩ := minByCmp_min_first cmpScores
    (fun x => (x.ewma.calculate_score).toQ) _ (cmpScores_filter_agree t hval) b hb
  exact ⟨l1, l2, hdec, hstrict⟩

theorem select_tie_break_first_witness :
    ∃ l1 l2,
      (RoutingTable.new [Backend.new 2 "a", Backend.new 1 "b"]).snapshot.filter
          (fun x => x.is_healthy) = l1 ++ (Backend.new 2 "a") :: l2
      ∧ ∀ c ∈ l1, ((Backend.new 2 "a").ewma.calculate_score).toQ
          < (c.ewma.calculate_score).toQ :=
  select_tie_break_first (RoutingTable.new [Backend.new 2 "a", Backend.new 1 "b"])
    (fun b hb _ => by
      rcases List.mem_cons.mp hb with h | h
      · exact ⟨(50 + 1) * (((0:ℕ) : ℚ) + 1), by rw [h]; rfl⟩
      · rcases List.mem_cons.mp h with h1 | h1
        · exact ⟨(50 + 1) * (((0:ℕ) : ℚ) + 1), by rw [h1]; rfl⟩
        · exact absurd h1 (List.not_mem_nil b))
    (Backend.new 2 "a")
    (by
      show minByCmp cmpScores [Backend.new 2 "a", Backend.new 1 "b"]
          = some (Backend.new 2 "a")
      simp only [minByCmp, List.foldl_cons, List.foldl_nil, minStep,
        Option.some.injEq]
      rw [if_neg ?_]
      intro hgt
      rw [cmpScores_val (Backend.new 2 "a") (Backend.new 1 "b")
        ((50 + 1) * (((0:ℕ) : ℚ) + 1)) ((50 + 1) * (((0:ℕ) : ℚ) + 1)) rfl rfl] at hgt
      exact absurd hgt (lt_irrefl _))

/-- Claim C9 fails on the code: a healthy backend whose score is NaN placed
first in the snapshot is returned even though another healthy backend has a
non-NaN score, because the comparator maps the incomparable pair to Equal
(not to treating NaN as infinity) and min_by keeps the earlier element. -/
theorem nan_score_counterexample :
    (Backend.mk 1 "a" true (PeakEwma.mk F.nan (F.val (1/2)) 0)).ewma.calculate_score
        = F.nan
    ∧ (Backend.new 2 "b").is_healthy = true
    ∧ (∃ q, (Backend.new 2 "b").ewma.calculate_score = F.val q)
    ∧ select_best_backend (RoutingTable.new
        [Backend.mk 1 "a" true (PeakEwma.mk F.nan (F.val (1/2)) 0), Backend.new 2 "b"])
      = some (Backend.mk 1 "a" true (PeakEwma.mk F.nan (F.val (1/2)) 0)) :=
  ⟨rfl, rfl, ⟨(50 + 1) * (((0:ℕ) : ℚ) + 1), rfl⟩, rfl⟩

/-- Claim C9 amended: select_best_backend cannot panic on a NaN score: the
comparison maps any pair involving a NaN score to Equal (rather than
deprioritizing NaN as infinity), and whenever some healthy backend exists a
healthy member of the snapshot is returned, which may be the NaN-scored one. -/
theorem select_nan_no_panic (t : RoutingTable)
    (h : ∃ b ∈ t.snapshot, b.is_healthy = true) :
    (∃ b, select_best_backend t = some b ∧ b ∈ t.snapshot ∧ b.is_healthy = true)
    ∧ ∀ a c : Backend,
        (a.ewma.calculate_score = F.nan ∨ c.ewma.calculate_score = F.nan) →
          cmpScores a c = Ordering.eq := by
  constructor
  · obtain ⟨b0, hb0, hh0⟩ := h
    cases hfil : t.snapshot.filter (fun x => x.is_healthy) with
    | nil =>
      have hmem : b0 ∈ t.snapshot.filter (fun x => x.is_healthy) :=
        List.mem_filter.mpr ⟨hb0, hh0⟩
      rw [hfil] at hmem
      exact absurd hmem (List.not_mem_nil b0)
    | cons x xs =>
      refine ⟨xs.foldl (minStep cmpScores) x, ?_, ?_, ?_⟩
      · show minByCmp cmpScores (t.snapshot.filter (fun b => b.is_healthy)) = _
        rw [hfil]
        rfl
      · have hm : xs.foldl (minStep cmpScores) x ∈ x :: xs :=
          foldl_minStep_mem _ _ _
        rw [← hfil] at hm
        exact (List.mem_filter.mp hm).1
      · have hm : xs.foldl (minStep cmpScores) x ∈ x :: xs :=
          foldl_minStep_mem _ _ _
        rw [← hfil] at hm
        exact (List.mem_filter.mp hm).2
  · intro a c hac
    unfold cmpScores
    rcases hac with h1 | h1
    · rw [h1]
      cases c.ewma.calculate_score <;> rfl
    · rw [h1]
      cases a.ewma.calculate_score <;> rfl

theorem select_nan_no_panic_witness :
    (∃ b, select_best_backend (RoutingTable.new [Backend.new 1 "a"]) = some b
      ∧ b ∈ (RoutingTable.new [Backend.new 1 "a"]).snapshot ∧ b.is_healthy = true)
    ∧ ∀ a c : Backend,
        (a.ewma.calculate_score = F.nan ∨ c.ewma.calculate_score = F.nan) →
          cmpScores a c = Ordering.eq :=
  select_nan_no_panic (RoutingTable.new [Backend.new 1 "a"])
    ⟨Backend.new 1 "a", List.mem_cons_self _ _, rfl⟩

/-- Claim C10: Backend.new(id, addr) is healthy with an EWMA tracker holding
baseline 50.0, decay alpha 0.5 and no active requests, for every id and
address; a table holding just this fresh backend selects it. -/
theorem backend_new_spec (id : ℕ) (addr : String) :
    (Backend.new id addr).is_healthy = true
    ∧ (Backend.new id addr).ewma.get_ewma = F.val 50
    ∧ (Backend.new id addr).ewma.decay_alpha = F.val (1/2)
    ∧ (Backend.new id addr).ewma.active_requests = 0
    ∧ select_best_backend (RoutingTable.new [Backend.new id addr])
        = some (Backend.new id addr) :=
  ⟨rfl, rfl, rfl, rfl, rfl⟩
